import Mathlib

/-!
Verification of the timing-resolution and voice-partitioning engine of
`hv_midi_seq/midi_to_table_msg.py` (Heavy-Midi-Sequencer).

Shallow embedding conventions:
* The merged, delta-time-annotated event stream produced by `mido.merge_tracks`
  is modelled as a `List (ℕ × MidiMsg)`: each element carries the delta ticks
  since the previous event (`msg.time`) and the message payload.
* Python floats are modelled by exact rationals `ℚ`; `round(x, 3)` is modelled
  by round-half-to-even at 3 decimal places (`round3`), Python's rounding mode.
* Python lists become Lean `List`s; the insertion-ordered dict `active` becomes
  an association list with overwrite-on-set semantics.
-/

/-- The message kinds inspected by the engine; everything else is `other`.
Mirrors the `msg.type` dispatch in the Python source. -/
inductive MidiMsg
  | setTempo (tempo : ℕ)
  | noteOn (note channel velocity : ℕ)
  | noteOff (note channel : ℕ)
  | other

/-- Loop of `build_tempo_map`: running absolute-tick counter `abs_tick`,
accumulator `acc`; every `set_tempo` appends `(abs_tick, tempo)`. -/
def build_tempo_map_loop (abs_tick : ℕ) (acc : List (ℕ × ℕ)) :
    List (ℕ × MidiMsg) → List (ℕ × ℕ)
  | [] => acc
  | (delta, msg) :: rest =>
      let t := abs_tick + delta
      match msg with
      | MidiMsg.setTempo tempo => build_tempo_map_loop t (acc ++ [(t, tempo)]) rest
      | _ => build_tempo_map_loop t acc rest

/-- `build_tempo_map`: starts from the default entry `(0, 500000)` and scans the
merged event stream once. -/
def build_tempo_map (msgs : List (ℕ × MidiMsg)) : List (ℕ × ℕ) :=
  build_tempo_map_loop 0 [(0, 500000)] msgs

/-- Loop of `abs_ticks_to_ms` over `tempo_map[1:]`, carrying
`prev_tick, prev_tempo, ms`.  The Python loop `break`s at the first segment
with `abs_tick <= seg_tick` and then adds the partial remainder; both the
break-path and the fall-through path end with the same final `ms +=` line,
so each branch here adds `(abs_tick - prev_tick) * (prev_tempo / ppq / 1000)`.
Tick differences are computed in `ℤ` (Python ints may go negative), then cast
to `ℚ`. -/
def abs_ticks_loop (abs_tick ppq : ℕ) :
    ℕ → ℕ → ℚ → List (ℕ × ℕ) → ℚ
  | prev_tick, prev_tempo, ms, [] =>
      ms + (((abs_tick : ℤ) - (prev_tick : ℤ) : ℤ) : ℚ) *
        ((prev_tempo : ℚ) / (ppq : ℚ) / 1000)
  | prev_tick, prev_tempo, ms, (seg_tick, seg_tempo) :: rest =>
      if abs_tick ≤ seg_tick then
        ms + (((abs_tick : ℤ) - (prev_tick : ℤ) : ℤ) : ℚ) *
          ((prev_tempo : ℚ) / (ppq : ℚ) / 1000)
      else
        abs_ticks_loop abs_tick ppq seg_tick seg_tempo
          (ms + (((seg_tick : ℤ) - (prev_tick : ℤ) : ℤ) : ℚ) *
            ((prev_tempo : ℚ) / (ppq : ℚ) / 1000)) rest

/-- `abs_ticks_to_ms(abs_tick, ppq, tempo_map)`.  The Python indexes
`tempo_map[0]` unconditionally; every map built by `build_tempo_map` is
non-empty, so the `[]` case (a Python `IndexError`) is given a junk value. -/
def abs_ticks_to_ms (abs_tick ppq : ℕ) (tempo_map : List (ℕ × ℕ)) : ℚ :=
  match tempo_map with
  | [] => 0
  | (t0, tempo0) :: rest => abs_ticks_loop abs_tick ppq t0 tempo0 0 rest

/-- Python's `round` to an integer: round half to even. -/
def roundHalfEven (q : ℚ) : ℤ :=
  let f := ⌊q⌋
  let frac := q - (f : ℚ)
  if frac < 1 / 2 then f
  else if 1 / 2 < frac then f + 1
  else if f % 2 = 0 then f else f + 1

/-- Python's `round(q, 3)`. -/
def round3 (q : ℚ) : ℚ := ((roundHalfEven (q * 1000) : ℤ) : ℚ) / 1000

/-- Lines 86–89 of `extract`: the (onset_ms, duration_ms) pair computed for a
matched note-on/note-off pair at ticks `on_tick`/`off_tick`:
`onset = round(ms(on),3)`, `offset = round(ms(off),3)`,
`dur = round(offset - onset, 3)`. -/
def note_times (on_tick off_tick ppq : ℕ) (tempo_map : List (ℕ × ℕ)) : ℚ × ℚ :=
  let onset := round3 (abs_ticks_to_ms on_tick ppq tempo_map)
  let offset := round3 (abs_ticks_to_ms off_tick ppq tempo_map)
  (onset, round3 (offset - onset))

/-- A note as stored in `extract`'s `notes` list:
`(pitch, velocity, duration_ms, onset_ms)`. -/
abbrev NoteQ : Type := ℕ × ℕ × ℚ × ℚ

/-- The open-note table `active`: a Python dict keyed by `(note, channel)`
holding `(on_tick, velocity)`, modelled as an association list whose keys
stay unique because setting an existing key overwrites in place. -/
abbrev Active : Type := List ((ℕ × ℕ) × (ℕ × ℕ))

/-- Dict assignment `active[key] = value` (overwrite if present). -/
def activeSet (k : ℕ × ℕ) (v : ℕ × ℕ) : Active → Active
  | [] => [(k, v)]
  | (k', v') :: rest =>
      if k' = k then (k, v) :: rest else (k', v') :: activeSet k v rest

/-- Dict lookup, first matching key. -/
def activeGet (k : ℕ × ℕ) : Active → Option (ℕ × ℕ)
  | [] => none
  | (k', v') :: rest => if k' = k then some v' else activeGet k rest

/-- Dict `pop`'s removal part: drop the first entry with the given key. -/
def activeErase (k : ℕ × ℕ) : Active → Active
  | [] => []
  | (k', v') :: rest =>
      if k' = k then rest else (k', v') :: activeErase k rest

/-- State threaded through `extract`'s event loop. -/
structure ExtractSt where
  abs_tick : ℕ
  active : Active
  notes : List NoteQ

/-- The note-off branch of `extract` (also taken by a note-on with velocity 0):
pop the matching open note if any and append the finished note
`(pitch, velocity, duration_ms, onset_ms)`; unmatched events are ignored. -/
def closeNote (ppq : ℕ) (tempo_map : List (ℕ × ℕ)) (t p c : ℕ)
    (st : ExtractSt) : ExtractSt :=
  match activeGet (p, c) st.active with
  | none => { st with abs_tick := t }
  | some (on_tick, vel) =>
      let onset := round3 (abs_ticks_to_ms on_tick ppq tempo_map)
      let offset := round3 (abs_ticks_to_ms t ppq tempo_map)
      let dur := round3 (offset - onset)
      { abs_tick := t, active := activeErase (p, c) st.active,
        notes := st.notes ++ [(p, vel, dur, onset)] }

/-- One iteration of `extract`'s event loop (the `current_tempo` variable of
the source is written but never read afterwards, so it is not modelled). -/
def extractStep (ppq : ℕ) (tempo_map : List (ℕ × ℕ))
    (st : ExtractSt) (ev : ℕ × MidiMsg) : ExtractSt :=
  let t := st.abs_tick + ev.1
  match ev.2 with
  | MidiMsg.setTempo _ => { st with abs_tick := t }
  | MidiMsg.noteOn p c v =>
      if 0 < v then
        { st with abs_tick := t, active := activeSet (p, c) (t, v) st.active }
      else closeNote ppq tempo_map t p c st
  | MidiMsg.noteOff p c => closeNote ppq tempo_map t p c st
  | MidiMsg.other => { st with abs_tick := t }

/-- `notes.sort(key=lambda n: (n[3], n[0]))`: stable sort by
(onset_ms, pitch); Python's `sort` is stable, as is `List.mergeSort`. -/
def sortNotes (notes : List NoteQ) : List NoteQ :=
  notes.mergeSort fun a b =>
    a.2.2.2 < b.2.2.2 ∨ (a.2.2.2 = b.2.2.2 ∧ a.1 ≤ b.1)

/-- `extract`, minus the file parsing done by `mido.MidiFile` (out of scope):
the event stream and `ticks_per_beat` stand in for the parsed file.  Returns
`(notes, ppq)` with the notes sorted by (onset_ms, pitch). -/
def extract (msgs : List (ℕ × MidiMsg)) (ppq : ℕ) : List NoteQ × ℕ :=
  let tempo_map := build_tempo_map msgs
  let final := msgs.foldl (extractStep ppq tempo_map) ⟨0, [], []⟩
  (sortNotes final.notes, ppq)

/-- A voice during `assign_voices`' placement loop, paired with its `end_ms`
entry (the source keeps `voices[i]` and `end_ms[i]` as parallel lists).  The
source appends `(pitch, vel, dur_ms)` to a voice; here each placed note also
retains its `onset_ms` (never read by the algorithm, dropped before output)
so that the no-overlap invariant can be stated. -/
abbrev VoiceSt : Type := List NoteQ × ℚ

/-- Placement state: the voices built so far, plus a flag recording whether
the forced-overflow branch (`if max_voices and len(voices) >= max_voices`)
was ever taken.  The flag is instrumentation only: it does not influence the
computation. -/
abbrev AssignSt : Type := List VoiceSt × Bool

/-- `voices[i].append(note); end_ms[i] = newEnd`. -/
def placeNote (note : NoteQ) (newEnd : ℚ) : ℕ → List VoiceSt → List VoiceSt
  | _, [] => []
  | 0, (ns, _) :: rest => (ns ++ [note], newEnd) :: rest
  | i + 1, v :: rest => v :: placeNote note newEnd i rest

/-- The inner `for i in range(len(voices))` scan: index of the first voice
with `onset_ms >= end_ms[i]`, if any. -/
def findFreeIdx (onset : ℚ) : List VoiceSt → Option ℕ
  | [] => none
  | (_, e) :: rest =>
      if e ≤ onset then some 0 else (findFreeIdx onset rest).map (· + 1)

/-- `end_ms.index(min(end_ms))`: index of the first occurrence of the minimum
end time, given the best candidate seen so far. -/
def argminEndAux (bestIdx : ℕ) (bestVal : ℚ) (i : ℕ) : List VoiceSt → ℕ
  | [] => bestIdx
  | (_, e) :: rest =>
      if e < bestVal then argminEndAux i e (i + 1) rest
      else argminEndAux bestIdx bestVal (i + 1) rest

/-- `end_ms.index(min(end_ms))` over a non-empty voice list. -/
def argminEnd : List VoiceSt → ℕ
  | [] => 0
  | (_, e) :: rest => argminEndAux 0 e 1 rest

/-- One iteration of the placement loop of `assign_voices` for the note
`(pitch, vel, dur_ms, onset_ms)`:
scan for a free voice; otherwise either force-assign to the voice with
minimum `end_ms` (cap reached and `max_voices` truthy, i.e. nonzero) or
open a new voice. -/
def assignStep (max_voices : ℕ) (st : AssignSt) (note : NoteQ) : AssignSt :=
  let onset := note.2.2.2
  let dur := note.2.2.1
  match findFreeIdx onset st.1 with
  | some i => (placeNote note (onset + dur) i st.1, st.2)
  | none =>
      if max_voices ≠ 0 ∧ max_voices ≤ st.1.length then
        (placeNote note (onset + dur) (argminEnd st.1) st.1, true)
      else
        (st.1 ++ [([note], onset + dur)], st.2)

/-- The whole placement loop, from empty voices. -/
def assignRun (notes : List NoteQ) (max_voices : ℕ) : AssignSt :=
  notes.foldl (assignStep max_voices) ([], false)

/-- `max(len(v) for v in voices)` (the source raises on an empty voice list,
which `main` rules out by the empty-notes check; `0` stands in here). -/
def maxLen (voices : List (List (ℕ × ℕ × ℚ))) : ℕ :=
  (voices.map List.length).foldl max 0

/-- Right-pad one voice with silence placeholders `(0, 0, 0.0)` up to `m`. -/
def padVoice (m : ℕ) (v : List (ℕ × ℕ × ℚ)) : List (ℕ × ℕ × ℚ) :=
  v ++ List.replicate (m - v.length) (0, 0, (0 : ℚ))

/-- `assign_voices(notes, max_voices)`: run the placement loop, drop the
instrumentation (each placed note's recorded onset and the per-voice
`end_ms`), pad all voices to the longest length, and—when `max_voices` is
truthy—append all-silence voices up to `max_voices`. -/
def assign_voices (notes : List NoteQ) (max_voices : ℕ) :
    List (List (ℕ × ℕ × ℚ)) :=
  let used := (assignRun notes max_voices).1.map
    fun v => v.1.map fun n => (n.1, n.2.1, n.2.2.1)
  let m := maxLen used
  let padded := used.map (padVoice m)
  if max_voices ≠ 0 then
    padded ++ List.replicate (max_voices - padded.length)
      (List.replicate m (0, 0, (0 : ℚ)))
  else padded

/-- `xlabel_marks(n, max_marks)` (the source defaults `max_marks` to 20 at
every call site): index tick-marks for a table of length `n`.  Python's
`range(0, n, step)` has `⌈n / step⌉` elements, here `(n + step - 1) / step`
of `List.range'`. -/
def xlabel_marks (n max_marks : ℕ) : List ℕ :=
  if n ≤ max_marks then List.range n
  else
    let step := max 1 (n / max_marks)
    let marks := List.range' 0 ((n + step - 1) / step) step
    if marks.getLast? = some (n - 1) then marks else marks ++ [n - 1]

/-- The algorithmic spine of `main` after parsing: extract, hard-stop with
`"No notes found."` (`sys.exit(1)`) on an empty note list, otherwise build
the voice arrays.  Argument parsing, console reporting and the textual
serialization of the arrays are the out-of-scope boundary layers. -/
def main_result (msgs : List (ℕ × MidiMsg)) (ppq max_voices : ℕ) :
    Except String (List (List (ℕ × ℕ × ℚ))) :=
  let notes := (extract msgs ppq).1
  if notes.isEmpty then Except.error "No notes found."
  else Except.ok (assign_voices notes max_voices)

/-! ### Helper lemmas: the tick-to-millisecond resolver -/

/-- The per-tick millisecond rate `tempo / ppq / 1000` is non-negative
(all quantities are casts of naturals). -/
lemma rate_nonneg (tempo ppq : ℕ) : 0 ≤ (tempo : ℚ) / (ppq : ℚ) / 1000 := by
  positivity

/-- If the segment ticks are non-decreasing from `pt` on and `pt ≤ t`, the
resolver loop never decreases the accumulated milliseconds. -/
lemma abs_ticks_loop_ge_init (t ppq : ℕ) :
    ∀ (segs : List (ℕ × ℕ)) (pt r : ℕ) (ms : ℚ),
      List.Chain' (fun a b : ℕ × ℕ => a.1 ≤ b.1) ((pt, r) :: segs) → pt ≤ t →
      ms ≤ abs_ticks_loop t ppq pt r ms segs := by
  intro segs
  induction segs with
  | nil =>
      intro pt r ms _ hpt
      simp only [abs_ticks_loop]
      have h1 : (0 : ℚ) ≤ (((t : ℤ) - (pt : ℤ) : ℤ) : ℚ) := by
        have : (pt : ℤ) ≤ (t : ℤ) := by exact_mod_cast hpt
        exact_mod_cast sub_nonneg.mpr this
      nlinarith [rate_nonneg r ppq]
  | cons seg rest ih =>
      intro pt r ms hchain hpt
      obtain ⟨st, sr⟩ := seg
      rw [List.chain'_cons] at hchain
      obtain ⟨hle, hchain'⟩ := hchain
      simp only [abs_ticks_loop]
      by_cases hbr : t ≤ st
      · simp only [hbr, if_true]
        have h1 : (0 : ℚ) ≤ (((t : ℤ) - (pt : ℤ) : ℤ) : ℚ) := by
          have : (pt : ℤ) ≤ (t : ℤ) := by exact_mod_cast hpt
          exact_mod_cast sub_nonneg.mpr this
        nlinarith [rate_nonneg r ppq]
      · simp only [hbr, if_false]
        have hst : st ≤ t := le_of_not_le hbr
        have h2 : ms ≤ ms + (((st : ℤ) - (pt : ℤ) : ℤ) : ℚ) *
            ((r : ℚ) / (ppq : ℚ) / 1000) := by
          have h1 : (0 : ℚ) ≤ (((st : ℤ) - (pt : ℤ) : ℤ) : ℚ) := by
            have : (pt : ℤ) ≤ (st : ℤ) := by exact_mod_cast hle
            exact_mod_cast sub_nonneg.mpr this
          nlinarith [rate_nonneg r ppq]
        exact le_trans h2 (ih st sr _ hchain' hst)

/-- Monotonicity of the resolver loop in the queried tick, for segment
lists whose ticks are non-decreasing from `pt` on. -/
lemma abs_ticks_loop_mono (t1 t2 ppq : ℕ) (h12 : t1 ≤ t2) :
    ∀ (segs : List (ℕ × ℕ)) (pt r : ℕ) (ms : ℚ),
      List.Chain' (fun a b : ℕ × ℕ => a.1 ≤ b.1) ((pt, r) :: segs) →
      abs_ticks_loop t1 ppq pt r ms segs ≤ abs_ticks_loop t2 ppq pt r ms segs := by
  intro segs
  induction segs with
  | nil =>
      intro pt r ms _
      simp only [abs_ticks_loop]
      have h1 : (((t1 : ℤ) - (pt : ℤ) : ℤ) : ℚ) ≤ (((t2 : ℤ) - (pt : ℤ) : ℤ) : ℚ) := by
        have : (t1 : ℤ) ≤ (t2 : ℤ) := by exact_mod_cast h12
        exact_mod_cast sub_le_sub_right this (pt : ℤ)
      nlinarith [rate_nonneg r ppq]
  | cons seg rest ih =>
      intro pt r ms hchain
      obtain ⟨st, sr⟩ := seg
      rw [List.chain'_cons] at hchain
      obtain ⟨hle, hchain'⟩ := hchain
      simp only [abs_ticks_loop]
      by_cases h2 : t2 ≤ st
      · have h1 : t1 ≤ st := le_trans h12 h2
        simp only [h1, h2, if_true]
        have hc : (((t1 : ℤ) - (pt : ℤ) : ℤ) : ℚ) ≤ (((t2 : ℤ) - (pt : ℤ) : ℤ) : ℚ) := by
          have : (t1 : ℤ) ≤ (t2 : ℤ) := by exact_mod_cast h12
          exact_mod_cast sub_le_sub_right this (pt : ℤ)
        nlinarith [rate_nonneg r ppq]
      · simp only [h2, if_false]
        by_cases h1 : t1 ≤ st
        · simp only [h1, if_true]
          have hstep : ms + (((t1 : ℤ) - (pt : ℤ) : ℤ) : ℚ) *
              ((r : ℚ) / (ppq : ℚ) / 1000) ≤
              ms + (((st : ℤ) - (pt : ℤ) : ℤ) : ℚ) *
              ((r : ℚ) / (ppq : ℚ) / 1000) := by
            have hc : (((t1 : ℤ) - (pt : ℤ) : ℤ) : ℚ) ≤ (((st : ℤ) - (pt : ℤ) : ℤ) : ℚ) := by
              have : (t1 : ℤ) ≤ (st : ℤ) := by exact_mod_cast h1
              exact_mod_cast sub_le_sub_right this (pt : ℤ)
            nlinarith [rate_nonneg r ppq]
          refine le_trans hstep ?_
          exact abs_ticks_loop_ge_init t2 ppq rest st sr _ hchain' (le_of_not_le h2)
        · simp only [h1, if_false]
          exact ih st sr _ hchain'

/-! ### Helper lemmas: structure of the built tempo map -/

/-- The loop of `build_tempo_map` only appends, so it preserves the head of a
non-empty accumulator. -/
lemma build_tempo_map_loop_cons (msgs : List (ℕ × MidiMsg)) :
    ∀ (t : ℕ) (a : ℕ × ℕ) (acc : List (ℕ × ℕ)),
      ∃ tail, build_tempo_map_loop t (a :: acc) msgs = a :: tail := by
  induction msgs with
  | nil => intro t a acc; exact ⟨acc, rfl⟩
  | cons ev rest ih =>
      intro t a acc
      obtain ⟨delta, msg⟩ := ev
      cases msg with
      | setTempo tempo =>
          simpa only [build_tempo_map_loop, List.cons_append] using
            ih (t + delta) a (acc ++ [(t + delta, tempo)])
      | noteOn p c v => simpa only [build_tempo_map_loop] using ih (t + delta) a acc
      | noteOff p c => simpa only [build_tempo_map_loop] using ih (t + delta) a acc
      | other => simpa only [build_tempo_map_loop] using ih (t + delta) a acc

/-- The loop of `build_tempo_map` keeps the start ticks non-decreasing, as
long as the accumulator is non-decreasing and ends at or before the running
absolute tick. -/
lemma build_tempo_map_loop_chain (msgs : List (ℕ × MidiMsg)) :
    ∀ (t : ℕ) (acc : List (ℕ × ℕ)),
      List.Chain' (fun a b : ℕ × ℕ => a.1 ≤ b.1) acc →
      (∀ x ∈ acc.getLast?, x.1 ≤ t) →
      List.Chain' (fun a b : ℕ × ℕ => a.1 ≤ b.1) (build_tempo_map_loop t acc msgs) := by
  induction msgs with
  | nil => intro t acc hc _; exact hc
  | cons ev rest ih =>
      intro t acc hc hlast
      obtain ⟨delta, msg⟩ := ev
      have hlast' : ∀ x ∈ acc.getLast?, x.1 ≤ t + delta :=
        fun x hx => le_trans (hlast x hx) (Nat.le_add_right t delta)
      cases msg with
      | setTempo tempo =>
          simp only [build_tempo_map_loop]
          refine ih (t + delta) (acc ++ [(t + delta, tempo)]) ?_ ?_
          · rw [List.chain'_append]
            refine ⟨hc, List.chain'_singleton _, ?_⟩
            intro x hx y hy
            simp only [List.head?_cons, Option.mem_some_iff] at hy
            subst hy
            exact hlast' x hx
          · intro x hx
            rw [List.getLast?_concat] at hx
            simp only [Option.mem_some_iff] at hx
            subst hx
            exact le_rfl
      | noteOn p c v => exact ih (t + delta) acc hc hlast'
      | noteOff p c => exact ih (t + delta) acc hc hlast'
      | other => exact ih (t + delta) acc hc hlast'

/-- Every built tempo map starts with the default entry `(0, 500000)`. -/
lemma build_tempo_map_head (msgs : List (ℕ × MidiMsg)) :
    ∃ tail, build_tempo_map msgs = (0, 500000) :: tail :=
  build_tempo_map_loop_cons msgs 0 (0, 500000) []

/-- Every built tempo map has non-decreasing start ticks. -/
lemma build_tempo_map_chain (msgs : List (ℕ × MidiMsg)) :
    List.Chain' (fun a b : ℕ × ℕ => a.1 ≤ b.1) (build_tempo_map msgs) := by
  refine build_tempo_map_loop_chain msgs 0 [(0, 500000)] (List.chain'_singleton _) ?_
  intro x hx
  simp only [List.getLast?_singleton, Option.mem_some_iff] at hx
  subst hx
  exact le_rfl

/-! ### Helper lemmas: duplicate-tick entries and resolution -/

/-- In the resolver loop, the earlier of two entries at the same tick is
invisible: it contributes a `(t - t) * rate = 0` segment. -/
lemma abs_ticks_loop_dup (tick ppq t a b : ℕ) (l₂ : List (ℕ × ℕ)) :
    ∀ (l₁ : List (ℕ × ℕ)) (pt r : ℕ) (ms : ℚ),
      abs_ticks_loop tick ppq pt r ms (l₁ ++ (t, a) :: (t, b) :: l₂) =
        abs_ticks_loop tick ppq pt r ms (l₁ ++ (t, b) :: l₂) := by
  intro l₁
  induction l₁ with
  | nil =>
      intro pt r ms
      by_cases h : tick ≤ t
      · simp [abs_ticks_loop, h]
      · simp [abs_ticks_loop, h]
  | cons c l₁' ih =>
      intro pt r ms
      obtain ⟨ct, cr⟩ := c
      by_cases h : tick ≤ ct
      · simp [abs_ticks_loop, h]
      · simp only [List.cons_append, abs_ticks_loop, h, if_false]
        exact ih ct cr _

/-- `abs_ticks_to_ms` ignores the earlier of two same-tick entries anywhere
after the head of the tempo map: the later entry wins. -/
lemma abs_ticks_dup_tail (tick ppq t0 r0 t a b : ℕ) (l₁ l₂ : List (ℕ × ℕ)) :
    abs_ticks_to_ms tick ppq ((t0, r0) :: (l₁ ++ (t, a) :: (t, b) :: l₂)) =
      abs_ticks_to_ms tick ppq ((t0, r0) :: (l₁ ++ (t, b) :: l₂)) := by
  simp only [abs_ticks_to_ms]
  exact abs_ticks_loop_dup tick ppq t a b l₂ l₁ t0 r0 0

/-- `abs_ticks_to_ms` also ignores the head entry when the next entry sits at
the same tick 0 (the case of a file tempo event at tick 0 shadowing the
default): the later entry wins. -/
lemma abs_ticks_dup_head (tick ppq a b : ℕ) (l₂ : List (ℕ × ℕ)) :
    abs_ticks_to_ms tick ppq ((0, a) :: (0, b) :: l₂) =
      abs_ticks_to_ms tick ppq ((0, b) :: l₂) := by
  simp only [abs_ticks_to_ms]
  by_cases h : tick ≤ 0
  · have h0 : tick = 0 := Nat.le_zero.mp h
    subst h0
    cases l₂ with
    | nil => simp [abs_ticks_loop]
    | cons s l => simp [abs_ticks_loop, Nat.zero_le]
  · simp [abs_ticks_loop, h]

/-! ### Claim C1 -/

/-- C1: for every tempo map produced by `build_tempo_map` (entries with
non-decreasing start ticks and positive tempos) and every `ppq > 0`,
`abs_ticks_to_ms` is monotonic non-decreasing in the queried tick. -/
theorem abs_ticks_to_ms_monotone (msgs : List (ℕ × MidiMsg)) (ppq t1 t2 : ℕ)
    (hppq : 0 < ppq)
    (hpos : ∀ e ∈ build_tempo_map msgs, 0 < e.2)
    (h12 : t1 ≤ t2) :
    abs_ticks_to_ms t1 ppq (build_tempo_map msgs) ≤
      abs_ticks_to_ms t2 ppq (build_tempo_map msgs) := by
  obtain ⟨tail, htail⟩ := build_tempo_map_head msgs
  have hchain := build_tempo_map_chain msgs
  rw [htail] at hchain ⊢
  simp only [abs_ticks_to_ms]
  exact abs_ticks_loop_mono t1 t2 ppq h12 tail 0 500000 0 hchain

/-- Witness for C1 at the tempo map of a single tempo change at tick 480. -/
theorem abs_ticks_to_ms_monotone_witness :
    (0 < 480 ∧ (∀ e ∈ build_tempo_map [(480, MidiMsg.setTempo 1000000)], 0 < e.2) ∧
      (0 : ℕ) ≤ 960) ∧
    abs_ticks_to_ms 0 480 (build_tempo_map [(480, MidiMsg.setTempo 1000000)]) ≤
      abs_ticks_to_ms 960 480 (build_tempo_map [(480, MidiMsg.setTempo 1000000)]) :=
  ⟨⟨by decide, by decide, by decide⟩,
    abs_ticks_to_ms_monotone [(480, MidiMsg.setTempo 1000000)] 480 0 960
      (by decide) (by decide) (by decide)⟩

/-! ### Claim C2 -/

/-- C2 as stated is false: with tempo map `[(0, 500000), (480, 1000000)]` and
`ppq = 480`, a note spanning ticks 0–960 does not get `duration_ms = 1000`
(the second 480 ticks run at 1000000 µs/quarter, i.e. 1000 ms per 480 ticks,
not 500 ms). -/
theorem scenarioB_claim_false :
    note_times 0 960 480 [(0, 500000), (480, 1000000)] ≠ (0, 1000) := by
  norm_num [note_times, abs_ticks_to_ms, abs_ticks_loop, round3, roundHalfEven]

/-- C2 amended: the note resolves to `onset_ms = 0` and `duration_ms = 1500`
(500 ms for the first 480 ticks at 500000 µs/quarter plus 1000 ms for the
next 480 ticks at 1000000 µs/quarter). -/
theorem scenarioB_corrected :
    note_times 0 960 480 [(0, 500000), (480, 1000000)] = (0, 1500) := by
  norm_num [note_times, abs_ticks_to_ms, abs_ticks_loop, round3, roundHalfEven]

/-! ### Claim C6 -/

/-- C6 as stated is false: a tempo event at tick 0 duplicates the default
entry's tick, so the built map's start ticks are not strictly increasing. -/
theorem tempo_map_not_strictly_increasing :
    ¬ List.Chain' (fun a b : ℕ × ℕ => a.1 < b.1)
      (build_tempo_map [(0, MidiMsg.setTempo 600000)]) := by
  have h : build_tempo_map [(0, MidiMsg.setTempo 600000)] =
      [(0, 500000), (0, 600000)] := by rfl
  rw [h]
  simp [List.chain'_cons, List.chain'_singleton]

/-- C6 amended: every tempo map returned by `build_tempo_map` has
non-decreasing (not necessarily strictly increasing) start ticks and first
entry `(0, 500000)`; duplicate-tick tempo changes are appended in stream
order, and the later of two same-tick entries wins during resolution by
`abs_ticks_to_ms` (the earlier entry — whether a mid-map duplicate or the
default head shadowed at tick 0 — can be dropped without changing any
resolved time). -/
theorem tempo_map_shape_and_later_wins (msgs : List (ℕ × MidiMsg)) :
    (build_tempo_map msgs).head? = some (0, 500000) ∧
    List.Chain' (fun a b : ℕ × ℕ => a.1 ≤ b.1) (build_tempo_map msgs) ∧
    (∀ tick ppq t0 r0 t a b : ℕ, ∀ l₁ l₂ : List (ℕ × ℕ),
      abs_ticks_to_ms tick ppq ((t0, r0) :: (l₁ ++ (t, a) :: (t, b) :: l₂)) =
        abs_ticks_to_ms tick ppq ((t0, r0) :: (l₁ ++ (t, b) :: l₂))) ∧
    (∀ tick ppq a b : ℕ, ∀ l₂ : List (ℕ × ℕ),
      abs_ticks_to_ms tick ppq ((0, a) :: (0, b) :: l₂) =
        abs_ticks_to_ms tick ppq ((0, b) :: l₂)) := by
  obtain ⟨tail, htail⟩ := build_tempo_map_head msgs
  refine ⟨by rw [htail]; rfl, build_tempo_map_chain msgs, ?_, ?_⟩
  · intro tick ppq t0 r0 t a b l₁ l₂
    exact abs_ticks_dup_tail tick ppq t0 r0 t a b l₁ l₂
  · intro tick ppq a b l₂
    exact abs_ticks_dup_head tick ppq a b l₂

/-! ### Claim C7 -/

/-- C7 as stated is false: with `n = 21` and `max_marks = 20` the stride is
`max(1, 21 // 20) = 1`, so `range(0, 21, 1)` already yields 21 > 20 marks. -/
theorem xlabel_marks_exceeds_cap : ¬ ((xlabel_marks 21 20).length ≤ 20) := by
  decide

/-- C7 amended: for every `n ≥ 1` and `max_marks ≥ 1`, `xlabel_marks n
max_marks` contains at most `2 * max_marks` marks (the stride
`max(1, n // max_marks)` only approximates the cap) and always includes the
final index `n - 1`. -/
theorem xlabel_marks_bound_and_final (n max_marks : ℕ)
    (hn : 1 ≤ n) (hm : 1 ≤ max_marks) :
    (xlabel_marks n max_marks).length ≤ 2 * max_marks ∧
    n - 1 ∈ xlabel_marks n max_marks := by
  by_cases h : n ≤ max_marks
  · constructor
    · simp only [xlabel_marks, h, if_true, List.length_range]
      omega
    · simp only [xlabel_marks, h, if_true, List.mem_range]
      omega
  · have hlt : max_marks < n := Nat.lt_of_not_le h
    have hq1 : 1 ≤ n / max_marks := (Nat.one_le_div_iff (by omega)).mpr (le_of_lt hlt)
    have hstep : max 1 (n / max_marks) = n / max_marks := max_eq_right hq1
    have hcount : (n + n / max_marks - 1) / (n / max_marks) =
        (n - 1) / (n / max_marks) + 1 := by
      have he : n + n / max_marks - 1 = (n - 1) + n / max_marks := by omega
      rw [he, Nat.add_div_right _ (by omega)]
    have hdm := Nat.div_add_mod n max_marks
    have hmod : n % max_marks < max_marks := Nat.mod_lt _ (by omega)
    have hA : 1 ≤ max_marks * (n / max_marks) := Nat.mul_pos (by omega) (by omega)
    have h3 : max_marks - 1 ≤ (max_marks - 1) * (n / max_marks) :=
      Nat.le_mul_of_pos_right _ (by omega)
    have h2 : (2 * max_marks - 1) * (n / max_marks) =
        max_marks * (n / max_marks) + (max_marks - 1) * (n / max_marks) := by
      have hsplit : 2 * max_marks - 1 = max_marks + (max_marks - 1) := by omega
      rw [hsplit, Nat.add_mul]
    have hkey : n - 1 < (2 * max_marks - 1) * (n / max_marks) := by
      rw [h2]
      omega
    have hdiv : (n - 1) / (n / max_marks) < 2 * max_marks - 1 :=
      (Nat.div_lt_iff_lt_mul (by omega)).mpr hkey
    have hgen : ∀ marks : List ℕ, marks.length = (n - 1) / (n / max_marks) + 1 →
        (if marks.getLast? = some (n - 1) then marks else marks ++ [n - 1]).length ≤
          2 * max_marks ∧
        n - 1 ∈ (if marks.getLast? = some (n - 1) then marks else marks ++ [n - 1]) := by
      intro marks hlen
      by_cases hg : marks.getLast? = some (n - 1)
      · rw [if_pos hg]
        refine ⟨by omega, List.mem_of_mem_getLast? ?_⟩
        rw [hg]
        rfl
      · rw [if_neg hg]
        constructor
        · rw [List.length_append, hlen]
          simp only [List.length_singleton]
          omega
        · simp
    have hform : xlabel_marks n max_marks =
        (if (List.range' 0 ((n - 1) / (n / max_marks) + 1) (n / max_marks)).getLast? =
            some (n - 1)
         then List.range' 0 ((n - 1) / (n / max_marks) + 1) (n / max_marks)
         else List.range' 0 ((n - 1) / (n / max_marks) + 1) (n / max_marks) ++ [n - 1]) := by
      simp only [xlabel_marks, h, if_false, hstep, hcount]
    rw [hform]
    exact hgen _ (List.length_range' _ _ _)

/-- Witness for the amended C7 at `n = 21`, `max_marks = 20`. -/
theorem xlabel_marks_bound_and_final_witness :
    (1 ≤ 21 ∧ 1 ≤ 20) ∧
    ((xlabel_marks 21 20).length ≤ 2 * 20 ∧ 21 - 1 ∈ xlabel_marks 21 20) :=
  ⟨⟨by decide, by decide⟩, xlabel_marks_bound_and_final 21 20 (by decide) (by decide)⟩

/-! ### Claim C8 -/

/-- C8: if extraction yields an empty note list, the pipeline reports the
"no notes found" condition and stops before producing any voice arrays or
output. -/
theorem empty_extract_hard_stop (msgs : List (ℕ × MidiMsg)) (ppq max_voices : ℕ)
    (h : (extract msgs ppq).1 = []) :
    main_result msgs ppq max_voices = Except.error "No notes found." := by
  simp [main_result, h]

/-- Witness for C8 at the empty event stream. -/
theorem empty_extract_hard_stop_witness :
    (extract [] 480).1 = [] ∧
    main_result [] 480 3 = Except.error "No notes found." :=
  ⟨by simp [extract, sortNotes],
    empty_extract_hard_stop [] 480 3 (by simp [extract, sortNotes])⟩

/-! ### Claim C5 -/

/-- C5: for the three notes with onsets 0, 100, 150 ms and durations
200, 200, 50 ms and `max_voices = 2`: note 1 goes to voice 0 (end 200),
note 2 opens voice 1 (end 300), and note 3 is force-assigned (flag `true`)
to voice 0 — the first voice of minimum `end_ms` — leaving voice 0's
`end_ms` at 150 + 50 = 200; padding then fills voice 1 with one `(0,0,0)`
placeholder. -/
theorem scenarioC_exact :
    assignRun [(60, 100, (200 : ℚ), (0 : ℚ)), (64, 90, 200, 100), (67, 80, 50, 150)] 2 =
      ([([(60, 100, 200, 0), (67, 80, 50, 150)], 200),
        ([(64, 90, 200, 100)], 300)], true) ∧
    assign_voices [(60, 100, (200 : ℚ), (0 : ℚ)), (64, 90, 200, 100), (67, 80, 50, 150)] 2 =
      [[(60, 100, 200), (67, 80, 50)], [(64, 90, 200), (0, 0, 0)]] := by
  constructor <;>
    norm_num [assign_voices, assignRun, assignStep, findFreeIdx, placeNote,
      argminEnd, argminEndAux, maxLen, padVoice]

/-! ### Helper lemmas: voice assignment -/

/-- `placeNote` never changes the number of voices. -/
lemma placeNote_length (note : NoteQ) (e : ℚ) :
    ∀ (i : ℕ) (vs : List VoiceSt), (placeNote note e i vs).length = vs.length := by
  intro i vs
  induction vs generalizing i with
  | nil => cases i <;> rfl
  | cons v rest ih =>
      cases i with
      | zero => obtain ⟨ns, e'⟩ := v; rfl
      | succ j => simpa [placeNote] using ih j

/-- One assignment step keeps the voice count at or below a nonzero cap. -/
lemma assignStep_length_le (mv : ℕ) (hmv : 1 ≤ mv) (st : AssignSt) (n : NoteQ)
    (h : st.1.length ≤ mv) : ((assignStep mv st n).1).length ≤ mv := by
  simp only [assignStep]
  cases hf : findFreeIdx n.2.2.2 st.1 with
  | some i => simpa [placeNote_length] using h
  | none =>
      by_cases hc : mv ≠ 0 ∧ mv ≤ st.1.length
      · rw [if_pos hc]
        simpa [placeNote_length] using h
      · rw [if_neg hc]
        simp only [List.length_append, List.length_singleton]
        have hlt : st.1.length < mv := by
          by_contra hge
          exact hc ⟨by omega, by omega⟩
        omega

/-- The placement loop keeps the voice count at or below a nonzero cap. -/
lemma assignLoop_length_le (mv : ℕ) (hmv : 1 ≤ mv) :
    ∀ (notes : List NoteQ) (st : AssignSt), st.1.length ≤ mv →
      ((List.foldl (assignStep mv) st notes).1).length ≤ mv := by
  intro notes
  induction notes with
  | nil => intro st h; exact h
  | cons n t ih =>
      intro st h
      exact ih (assignStep mv st n) (assignStep_length_le mv hmv st n h)

/-- The initial accumulator is below every `foldl max`. -/
lemma foldl_max_init_le (l : List ℕ) : ∀ a : ℕ, a ≤ l.foldl max a := by
  induction l with
  | nil => intro a; exact le_rfl
  | cons b t ih => intro a; exact le_trans (le_max_left a b) (ih (max a b))

/-- Every member of a list is below its `foldl max`. -/
lemma mem_le_foldl_max (l : List ℕ) : ∀ (a x : ℕ), x ∈ l → x ≤ l.foldl max a := by
  induction l with
  | nil => intro a x hx; cases hx
  | cons b t ih =>
      intro a x hx
      rcases List.mem_cons.mp hx with rfl | hx'
      · exact le_trans (le_max_right a x) (foldl_max_init_le t (max a x))
      · exact ih (max a b) x hx'

/-- Every voice's length is bounded by `maxLen`. -/
lemma length_le_maxLen (vs : List (List (ℕ × ℕ × ℚ))) (v : List (ℕ × ℕ × ℚ))
    (hv : v ∈ vs) : v.length ≤ maxLen vs :=
  mem_le_foldl_max _ 0 _ (List.mem_map_of_mem List.length hv)

/-- Padding brings a voice not longer than `m` to exactly `m` entries. -/
lemma padVoice_length (m : ℕ) (v : List (ℕ × ℕ × ℚ)) (h : v.length ≤ m) :
    (padVoice m v).length = m := by
  simp only [padVoice, List.length_append, List.length_replicate]
  omega

/-! ### Claim C3 -/

/-- C3: for a non-empty note list and `max_voices ≥ 1`, `assign_voices`
returns exactly `max_voices` voices, all of identical length (shorter voices
are right-padded with `(0, 0, 0.0)` placeholders and missing voices are
all-placeholder). -/
theorem assign_voices_shape (notes : List NoteQ) (mv : ℕ)
    (hne : notes ≠ []) (hmv : 1 ≤ mv) :
    (assign_voices notes mv).length = mv ∧
    ∀ v1 ∈ assign_voices notes mv, ∀ v2 ∈ assign_voices notes mv,
      v1.length = v2.length := by
  have hused : ((assignRun notes mv).1.map
      fun v => v.1.map fun n => (n.1, n.2.1, n.2.2.1)).length ≤ mv := by
    rw [List.length_map]
    exact assignLoop_length_le mv hmv notes ([], false) (by simp)
  have hmv0 : mv ≠ 0 := by omega
  have hlen_all : ∀ v ∈ assign_voices notes mv,
      v.length = maxLen ((assignRun notes mv).1.map
        fun v => v.1.map fun n => (n.1, n.2.1, n.2.2.1)) := by
    intro v hv
    simp only [assign_voices, hmv0, ne_eq, not_false_eq_true, if_true] at hv
    rcases List.mem_append.mp hv with hpad | hrep
    · obtain ⟨u, hu, rfl⟩ := List.mem_map.mp hpad
      exact padVoice_length _ u (length_le_maxLen _ u hu)
    · have := List.eq_of_mem_replicate hrep
      subst this
      exact List.length_replicate _ _
  constructor
  · simp only [assign_voices, hmv0, ne_eq, not_false_eq_true, if_true,
      List.length_append, List.length_map, List.length_replicate]
    rw [List.length_map] at hused
    omega
  · intro v1 h1 v2 h2
    rw [hlen_all v1 h1, hlen_all v2 h2]

/-- Witness for C3 at a single note and `max_voices = 3`. -/
theorem assign_voices_shape_witness :
    ([(60, 100, (200 : ℚ), (0 : ℚ))] ≠ ([] : List NoteQ) ∧ 1 ≤ 3) ∧
    ((assign_voices [(60, 100, (200 : ℚ), (0 : ℚ))] 3).length = 3 ∧
      ∀ v1 ∈ assign_voices [(60, 100, (200 : ℚ), (0 : ℚ))] 3,
        ∀ v2 ∈ assign_voices [(60, 100, (200 : ℚ), (0 : ℚ))] 3,
          v1.length = v2.length) :=
  ⟨⟨List.cons_ne_nil _ _, by decide⟩,
    assign_voices_shape [(60, 100, (200 : ℚ), (0 : ℚ))] 3
      (List.cons_ne_nil _ _) (by decide)⟩

/-! ### Helper lemmas: the no-overlap invariant -/

/-- "prev and next do not overlap": the next note starts no earlier than the
previous note's onset plus its duration. -/
def noClash (a b : NoteQ) : Prop := a.2.2.2 + a.2.2.1 ≤ b.2.2.2

/-- Invariant of a voice built by the placement loop: its notes are pairwise
non-overlapping in placement order, it is non-empty, and its `end_ms` entry
equals the last note's onset plus duration. -/
def voiceInv (v : VoiceSt) : Prop :=
  List.Chain' noClash v.1 ∧ ∃ a : NoteQ, v.1.getLast? = some a ∧ v.2 = a.2.2.2 + a.2.2.1

/-- A fresh singleton voice satisfies the invariant. -/
lemma voiceInv_singleton (n : NoteQ) : voiceInv ([n], n.2.2.2 + n.2.2.1) :=
  ⟨List.chain'_singleton n, n, rfl, rfl⟩

/-- Placing a note into the voice found by the free scan preserves the
invariant of every voice. -/
lemma placeNote_free_inv (note : NoteQ) :
    ∀ (vs : List VoiceSt) (i : ℕ),
      findFreeIdx note.2.2.2 vs = some i →
      (∀ v ∈ vs, voiceInv v) →
      ∀ v ∈ placeNote note (note.2.2.2 + note.2.2.1) i vs, voiceInv v := by
  intro vs
  induction vs with
  | nil => intro i hf; cases hf
  | cons hd rest ih =>
      intro i hf hinv
      obtain ⟨ns, e⟩ := hd
      simp only [findFreeIdx] at hf
      by_cases he : e ≤ note.2.2.2
      · rw [if_pos he, Option.some.injEq] at hf
        subst hf
        intro v hv
        simp only [placeNote] at hv
        rcases List.mem_cons.mp hv with rfl | hv'
        · obtain ⟨hchain, a, hlast, hend⟩ := hinv (ns, e) (List.mem_cons_self _ _)
          refine ⟨?_, note, List.getLast?_concat ns, rfl⟩
          rw [List.chain'_append]
          refine ⟨hchain, List.chain'_singleton note, ?_⟩
          intro x hx y hy
          simp only [List.head?_cons, Option.mem_some_iff] at hy
          subst hy
          rw [hlast, Option.mem_some_iff] at hx
          subst hx
          exact le_trans (le_of_eq hend.symm) he
        · exact hinv v (List.mem_cons_of_mem _ hv')
      · rw [if_neg he] at hf
        cases hrec : findFreeIdx note.2.2.2 rest with
        | none => rw [hrec] at hf; cases hf
        | some j =>
            rw [hrec] at hf
            have hf' : i = j + 1 := by simpa using hf.symm
            subst hf'
            intro v hv
            simp only [placeNote] at hv
            rcases List.mem_cons.mp hv with rfl | hv'
            · exact hinv _ (List.mem_cons_self _ _)
            · exact ih j hrec (fun w hw => hinv w (List.mem_cons_of_mem _ hw)) v hv'

/-- An assignment step that leaves the overflow flag `false` did not take the
forced branch. -/
lemma assignStep_flag_false (mv : ℕ) (st : AssignSt) (n : NoteQ)
    (h : (assignStep mv st n).2 = false) : st.2 = false := by
  simp only [assignStep] at h
  cases hf : findFreeIdx n.2.2.2 st.1 with
  | some i => rw [hf] at h; exact h
  | none =>
      rw [hf] at h
      by_cases hc : mv ≠ 0 ∧ mv ≤ st.1.length
      · rw [if_pos hc] at h; cases h
      · rw [if_neg hc] at h; exact h

/-- If the whole placement loop ends with the flag `false`, it was `false`
at every intermediate state, in particular at the start. -/
lemma assignLoop_flag_false (mv : ℕ) :
    ∀ (notes : List NoteQ) (st : AssignSt),
      (List.foldl (assignStep mv) st notes).2 = false → st.2 = false := by
  intro notes
  induction notes with
  | nil => intro st h; exact h
  | cons n t ih =>
      intro st h
      exact assignStep_flag_false mv st n (ih (assignStep mv st n) h)

/-- Main invariant of the placement loop: as long as the forced-overflow
branch is never taken (final flag `false`), every voice satisfies
`voiceInv`. -/
lemma assignLoop_inv (mv : ℕ) :
    ∀ (notes : List NoteQ) (st : AssignSt),
      (∀ v ∈ st.1, voiceInv v) →
      (List.foldl (assignStep mv) st notes).2 = false →
      ∀ v ∈ (List.foldl (assignStep mv) st notes).1, voiceInv v := by
  intro notes
  induction notes with
  | nil => intro st hinv _; exact hinv
  | cons n t ih =>
      intro st hinv hflag
      have hstep_flag : (assignStep mv st n).2 = false :=
        assignLoop_flag_false mv t (assignStep mv st n) hflag
      refine ih (assignStep mv st n) ?_ hflag
      simp only [assignStep] at hstep_flag ⊢
      cases hf : findFreeIdx n.2.2.2 st.1 with
      | some i => exact placeNote_free_inv n st.1 i hf hinv
      | none =>
          rw [hf] at hstep_flag
          dsimp only at hstep_flag ⊢
          by_cases hc : mv ≠ 0 ∧ mv ≤ st.1.length
          · rw [if_pos hc] at hstep_flag
            simp at hstep_flag
          · rw [if_neg hc]
            dsimp only
            intro v hv
            rcases List.mem_append.mp hv with hv' | hv'
            · exact hinv v hv'
            · rw [List.mem_singleton] at hv'
              subst hv'
              exact voiceInv_singleton n

/-! ### Claim C4 -/

/-- C4: for a note list sorted by onset and any `max_voices`, if the run of
the placement loop never takes the forced-overflow branch (final flag
`false`), then within each voice (before padding) every consecutive pair of
placed notes satisfies `prev.onset_ms + prev.duration_ms ≤ next.onset_ms`. -/
theorem assign_no_overlap (notes : List NoteQ) (mv : ℕ)
    (hsorted : List.Chain' (fun a b : NoteQ => a.2.2.2 ≤ b.2.2.2) notes)
    (hflag : (assignRun notes mv).2 = false) :
    ∀ v ∈ (assignRun notes mv).1, List.Chain' noClash v.1 := by
  intro v hv
  exact (assignLoop_inv mv notes ([], false) (by simp) hflag v hv).1

/-- Witness for C4 at a single note and `max_voices = 3`. -/
theorem assign_no_overlap_witness :
    (List.Chain' (fun a b : NoteQ => a.2.2.2 ≤ b.2.2.2) [(60, 100, (200 : ℚ), (0 : ℚ))] ∧
      (assignRun [(60, 100, (200 : ℚ), (0 : ℚ))] 3).2 = false) ∧
    ∀ v ∈ (assignRun [(60, 100, (200 : ℚ), (0 : ℚ))] 3).1, List.Chain' noClash v.1 :=
  ⟨⟨List.chain'_singleton _, rfl⟩,
    assign_no_overlap [(60, 100, (200 : ℚ), (0 : ℚ))] 3 (List.chain'_singleton _) rfl⟩

/-! ### Claim C10 -/

/-- With `max_voices = 0` one step never takes the forced branch. -/
lemma assignStep_zero_flag (st : AssignSt) (n : NoteQ) :
    (assignStep 0 st n).2 = st.2 := by
  simp only [assignStep]
  cases hf : findFreeIdx n.2.2.2 st.1 with
  | some i => rfl
  | none => simp

/-- With `max_voices = 0` the whole loop keeps the flag `false`. -/
lemma assignLoop_zero_flag :
    ∀ (notes : List NoteQ) (st : AssignSt), st.2 = false →
      (List.foldl (assignStep 0) st notes).2 = false := by
  intro notes
  induction notes with
  | nil => intro st h; exact h
  | cons n t ih =>
      intro st h
      exact ih (assignStep 0 st n) ((assignStep_zero_flag st n).trans h)

/-- C10: with `max_voices = 0` the cap is inert (Python falsiness of `0`):
the forced-overflow branch is never taken, every note without a free voice
opens a new voice, and no all-silence voices are appended, so the returned
voice count equals the number of voices actually used by the run. -/
theorem assign_voices_uncapped (notes : List NoteQ) (hne : notes ≠ []) :
    (assignRun notes 0).2 = false ∧
    (assign_voices notes 0).length = (assignRun notes 0).1.length ∧
    (∀ (st : AssignSt) (n : NoteQ), findFreeIdx n.2.2.2 st.1 = none →
      ((assignStep 0 st n).1).length = st.1.length + 1) := by
  refine ⟨assignLoop_zero_flag notes ([], false) rfl, ?_, ?_⟩
  · simp [assign_voices]
  · intro st n hf
    simp only [assignStep, hf]
    simp

/-- Witness for C10 at a single note. -/
theorem assign_voices_uncapped_witness :
    ([(60, 100, (200 : ℚ), (0 : ℚ))] ≠ ([] : List NoteQ)) ∧
    ((assignRun [(60, 100, (200 : ℚ), (0 : ℚ))] 0).2 = false ∧
      (assign_voices [(60, 100, (200 : ℚ), (0 : ℚ))] 0).length =
        (assignRun [(60, 100, (200 : ℚ), (0 : ℚ))] 0).1.length ∧
      (∀ (st : AssignSt) (n : NoteQ), findFreeIdx n.2.2.2 st.1 = none →
        ((assignStep 0 st n).1).length = st.1.length + 1)) :=
  ⟨List.cons_ne_nil _ _,
    assign_voices_uncapped [(60, 100, (200 : ℚ), (0 : ℚ))] (List.cons_ne_nil _ _)⟩

/-! ### Helper lemmas: velocities and placeholders -/

/-- Everything in `activeSet k v l` is the new binding or was already there. -/
lemma activeSet_mem (k v : ℕ × ℕ) :
    ∀ (l : Active) (kv : (ℕ × ℕ) × (ℕ × ℕ)),
      kv ∈ activeSet k v l → kv = (k, v) ∨ kv ∈ l := by
  intro l
  induction l with
  | nil =>
      intro kv hkv
      simp only [activeSet, List.mem_singleton] at hkv
      exact Or.inl hkv
  | cons hd rest ih =>
      intro kv hkv
      obtain ⟨k', v'⟩ := hd
      simp only [activeSet] at hkv
      by_cases hk : k' = k
      · rw [if_pos hk] at hkv
        rcases List.mem_cons.mp hkv with rfl | h
        · exact Or.inl rfl
        · exact Or.inr (List.mem_cons_of_mem _ h)
      · rw [if_neg hk] at hkv
        rcases List.mem_cons.mp hkv with rfl | h
        · exact Or.inr (List.mem_cons_self _ _)
        · rcases ih kv h with h' | h'
          · exact Or.inl h'
          · exact Or.inr (List.mem_cons_of_mem _ h')

/-- A successful dict lookup returns a binding present in the list. -/
lemma activeGet_mem (k : ℕ × ℕ) :
    ∀ (l : Active) (v : ℕ × ℕ), activeGet k l = some v → (k, v) ∈ l := by
  intro l
  induction l with
  | nil => intro v h; cases h
  | cons hd rest ih =>
      intro v h
      obtain ⟨k', v'⟩ := hd
      simp only [activeGet] at h
      by_cases hk : k' = k
      · rw [if_pos hk] at h
        obtain rfl : v' = v := by simpa using h
        subst hk
        exact List.mem_cons_self _ _
      · rw [if_neg hk] at h
        exact List.mem_cons_of_mem _ (ih v h)

/-- Erasing a key only removes entries. -/
lemma activeErase_subset (k : ℕ × ℕ) :
    ∀ (l : Active) (kv : (ℕ × ℕ) × (ℕ × ℕ)), kv ∈ activeErase k l → kv ∈ l := by
  intro l
  induction l with
  | nil => intro kv h; cases h
  | cons hd rest ih =>
      intro kv h
      obtain ⟨k', v'⟩ := hd
      simp only [activeErase] at h
      by_cases hk : k' = k
      · rw [if_pos hk] at h
        exact List.mem_cons_of_mem _ h
      · rw [if_neg hk] at h
        rcases List.mem_cons.mp h with rfl | h'
        · exact List.mem_cons_self _ _
        · exact List.mem_cons_of_mem _ (ih kv h')

/-- Invariant of the extraction loop: every open note and every finished
note carries a velocity of at least 1 (only `note_on` events with velocity
> 0 open notes, and finished notes inherit the opening velocity). -/
def extractInv (st : ExtractSt) : Prop :=
  (∀ kv ∈ st.active, 1 ≤ kv.2.2) ∧ ∀ n ∈ st.notes, 1 ≤ n.2.1

/-- Closing a note preserves the velocity invariant. -/
lemma closeNote_inv (ppq : ℕ) (tm : List (ℕ × ℕ)) (t p c : ℕ) (st : ExtractSt)
    (h : extractInv st) : extractInv (closeNote ppq tm t p c st) := by
  obtain ⟨hact, hnotes⟩ := h
  simp only [closeNote]
  cases hg : activeGet (p, c) st.active with
  | none => exact ⟨hact, hnotes⟩
  | some pv =>
      obtain ⟨ot, vel⟩ := pv
      dsimp only
      constructor
      · intro kv hkv
        exact hact kv (activeErase_subset _ _ kv hkv)
      · intro n hn
        rcases List.mem_append.mp hn with h' | h'
        · exact hnotes n h'
        · rw [List.mem_singleton] at h'
          subst h'
          exact hact ((p, c), (ot, vel)) (activeGet_mem _ _ _ hg)

/-- One event preserves the velocity invariant. -/
lemma extractStep_inv (ppq : ℕ) (tm : List (ℕ × ℕ)) (st : ExtractSt)
    (ev : ℕ × MidiMsg) (h : extractInv st) :
    extractInv (extractStep ppq tm st ev) := by
  obtain ⟨hact, hnotes⟩ := h
  obtain ⟨delta, msg⟩ := ev
  cases msg with
  | setTempo tempo => exact ⟨hact, hnotes⟩
  | noteOn p c v =>
      simp only [extractStep]
      by_cases hv : 0 < v
      · rw [if_pos hv]
        refine ⟨?_, hnotes⟩
        intro kv hkv
        rcases activeSet_mem (p, c) (st.abs_tick + delta, v) st.active kv hkv with rfl | h'
        · exact hv
        · exact hact kv h'
      · rw [if_neg hv]
        exact closeNote_inv ppq tm _ p c st ⟨hact, hnotes⟩
  | noteOff p c => exact closeNote_inv ppq tm _ p c st ⟨hact, hnotes⟩
  | other => exact ⟨hact, hnotes⟩

/-- The whole extraction loop preserves the velocity invariant. -/
lemma extractLoop_inv (ppq : ℕ) (tm : List (ℕ × ℕ)) :
    ∀ (msgs : List (ℕ × MidiMsg)) (st : ExtractSt), extractInv st →
      extractInv (List.foldl (extractStep ppq tm) st msgs) := by
  intro msgs
  induction msgs with
  | nil => intro st h; exact h
  | cons ev t ih => intro st h; exact ih _ (extractStep_inv ppq tm st ev h)

/-- Every note produced by `extract` has velocity at least 1. -/
lemma extract_vel_pos (msgs : List (ℕ × MidiMsg)) (ppq : ℕ) :
    ∀ n ∈ (extract msgs ppq).1, 1 ≤ n.2.1 := by
  intro n hn
  simp only [extract] at hn
  have hmem : n ∈ (List.foldl (extractStep ppq (build_tempo_map msgs))
      ⟨0, [], []⟩ msgs).notes := by
    simpa [sortNotes, List.mem_mergeSort] using hn
  refine (extractLoop_inv ppq (build_tempo_map msgs) msgs ⟨0, [], []⟩ ?_).2 n hmem
  exact ⟨fun kv hkv => absurd hkv (List.not_mem_nil kv),
    fun m hm => absurd hm (List.not_mem_nil m)⟩

/-- Entries introduced by `placeNote` are the placed note or old entries. -/
lemma placeNote_entries (note : NoteQ) (e : ℚ) :
    ∀ (vs : List VoiceSt) (i : ℕ) (v : VoiceSt), v ∈ placeNote note e i vs →
      ∀ x ∈ v.1, x = note ∨ ∃ w ∈ vs, x ∈ w.1 := by
  intro vs
  induction vs with
  | nil => intro i v hv; simp [placeNote] at hv
  | cons hd rest ih =>
      intro i v hv x hx
      obtain ⟨ns, e'⟩ := hd
      cases i with
      | zero =>
          simp only [placeNote] at hv
          rcases List.mem_cons.mp hv with rfl | hv'
          · rcases List.mem_append.mp hx with hx' | hx'
            · exact Or.inr ⟨(ns, e'), List.mem_cons_self _ _, hx'⟩
            · rw [List.mem_singleton] at hx'
              exact Or.inl hx'
          · exact Or.inr ⟨v, List.mem_cons_of_mem _ hv', hx⟩
      | succ j =>
          simp only [placeNote] at hv
          rcases List.mem_cons.mp hv with rfl | hv'
          · exact Or.inr ⟨_, List.mem_cons_self _ _, hx⟩
          · rcases ih j v hv' x hx with h' | ⟨w, hw, hxw⟩
            · exact Or.inl h'
            · exact Or.inr ⟨w, List.mem_cons_of_mem _ hw, hxw⟩

/-- Entries after one assignment step are the new note or old entries. -/
lemma assignStep_entries (mv : ℕ) (st : AssignSt) (n : NoteQ) :
    ∀ v ∈ (assignStep mv st n).1, ∀ x ∈ v.1, x = n ∨ ∃ w ∈ st.1, x ∈ w.1 := by
  simp only [assignStep]
  cases hf : findFreeIdx n.2.2.2 st.1 with
  | some i =>
      dsimp only
      intro v hv
      exact placeNote_entries n _ st.1 i v hv
  | none =>
      dsimp only
      by_cases hc : mv ≠ 0 ∧ mv ≤ st.1.length
      · rw [if_pos hc]
        dsimp only
        intro v hv
        exact placeNote_entries n _ st.1 _ v hv
      · rw [if_neg hc]
        dsimp only
        intro v hv x hx
        rcases List.mem_append.mp hv with hv' | hv'
        · exact Or.inr ⟨v, hv', hx⟩
        · rw [List.mem_singleton] at hv'
          subst hv'
          rw [List.mem_singleton] at hx
          exact Or.inl hx

/-- Entries of the whole placement loop come from the notes or the start. -/
lemma assignLoop_entries (mv : ℕ) :
    ∀ (notes : List NoteQ) (st : AssignSt),
      ∀ v ∈ (List.foldl (assignStep mv) st notes).1, ∀ x ∈ v.1,
        x ∈ notes ∨ ∃ w ∈ st.1, x ∈ w.1 := by
  intro notes
  induction notes with
  | nil => intro st v hv x hx; exact Or.inr ⟨v, hv, hx⟩
  | cons n t ih =>
      intro st v hv x hx
      rcases ih (assignStep mv st n) v hv x hx with hx' | ⟨w, hw, hxw⟩
      · exact Or.inl (List.mem_cons_of_mem n hx')
      · rcases assignStep_entries mv st n w hw x hxw with rfl | ⟨w', hw', hxw'⟩
        · exact Or.inl (List.mem_cons_self _ _)
        · exact Or.inr ⟨w', hw', hxw'⟩

/-- Every note placed by the run is one of the input notes. -/
lemma assignRun_entries (notes : List NoteQ) (mv : ℕ) :
    ∀ v ∈ (assignRun notes mv).1, ∀ x ∈ v.1, x ∈ notes := by
  intro v hv x hx
  rcases assignLoop_entries mv notes ([], false) v hv x hx with h | ⟨w, hw, _⟩
  · exact h
  · exact absurd hw (List.not_mem_nil w)

/-- Every entry of the final voice arrays is a padding placeholder or the
projection of an input note. -/
lemma assign_voices_entries (notes : List NoteQ) (mv : ℕ) :
    ∀ v ∈ assign_voices notes mv, ∀ e ∈ v,
      e = (0, 0, (0 : ℚ)) ∨ ∃ x ∈ notes, e = (x.1, x.2.1, x.2.2.1) := by
  intro v hv e he
  simp only [assign_voices] at hv
  have hpadded : ∀ u ∈ ((assignRun notes mv).1.map
      fun w => w.1.map fun n => (n.1, n.2.1, n.2.2.1)),
      e ∈ padVoice (maxLen ((assignRun notes mv).1.map
        fun w => w.1.map fun n => (n.1, n.2.1, n.2.2.1))) u →
      e = (0, 0, (0 : ℚ)) ∨ ∃ x ∈ notes, e = (x.1, x.2.1, x.2.2.1) := by
    intro u hu heu
    rcases List.mem_append.mp heu with he' | he'
    · obtain ⟨w, hw, rfl⟩ := List.mem_map.mp hu
      obtain ⟨x, hx, rfl⟩ := List.mem_map.mp he'
      exact Or.inr ⟨x, assignRun_entries notes mv w hw x hx, rfl⟩
    · exact Or.inl (List.eq_of_mem_replicate he')
  by_cases hm : mv ≠ 0
  · rw [if_pos hm] at hv
    rcases List.mem_append.mp hv with hv' | hv'
    · obtain ⟨u, hu, rfl⟩ := List.mem_map.mp hv'
      exact hpadded u hu he
    · have := List.eq_of_mem_replicate hv'
      subst this
      exact Or.inl (List.eq_of_mem_replicate he)
  · rw [if_neg hm] at hv
    obtain ⟨u, hu, rfl⟩ := List.mem_map.mp hv
    exact hpadded u hu he

/-! ### Claim C9 -/

/-- C9: every note produced by `extract` has velocity ≥ 1, every padding
entry added by `assign_voices` is `(0, 0, 0.0)`, and hence an entry of the
final voice arrays is a silence placeholder exactly when its velocity is
0. -/
theorem velocity_iff_placeholder (msgs : List (ℕ × MidiMsg)) (ppq mv : ℕ) :
    (∀ n ∈ (extract msgs ppq).1, 1 ≤ n.2.1) ∧
    (∀ v ∈ assign_voices (extract msgs ppq).1 mv, ∀ e ∈ v,
      (e.2.1 = 0 ↔ e = (0, 0, (0 : ℚ)))) := by
  refine ⟨extract_vel_pos msgs ppq, ?_⟩
  intro v hv e he
  rcases assign_voices_entries (extract msgs ppq).1 mv v hv e he with rfl | ⟨x, hx, rfl⟩
  · simp
  · have hvel : 1 ≤ x.2.1 := extract_vel_pos msgs ppq x hx
    constructor
    · intro h0
      exfalso
      have : x.2.1 = 0 := by simpa using h0
      omega
    · intro h0
      exfalso
      have : x.2.1 = 0 := by
        have h1 := congrArg (fun p : ℕ × ℕ × ℚ => p.2.1) h0
        simpa using h1
      omega

/-- Witness for C9 at a concrete one-note stream. -/
theorem velocity_iff_placeholder_witness :
    (60, 100, (500 : ℚ), (0 : ℚ)) ∈
      (extract [(0, MidiMsg.noteOn 60 0 100), (480, MidiMsg.noteOff 60 0)] 480).1 ∧
    1 ≤ ((60, 100, (500 : ℚ), (0 : ℚ)) : NoteQ).2.1 :=
  ⟨by norm_num [extract, extractStep, closeNote, activeGet, activeSet, activeErase,
      sortNotes, build_tempo_map, build_tempo_map_loop, abs_ticks_to_ms,
      abs_ticks_loop, round3, roundHalfEven, List.mergeSort_singleton],
    (velocity_iff_placeholder [(0, MidiMsg.noteOn 60 0 100), (480, MidiMsg.noteOff 60 0)]
        480 3).1 (60, 100, (500 : ℚ), (0 : ℚ))
      (by norm_num [extract, extractStep, closeNote, activeGet, activeSet, activeErase,
        sortNotes, build_tempo_map, build_tempo_map_loop, abs_ticks_to_ms,
        abs_ticks_loop, round3, roundHalfEven, List.mergeSort_singleton])⟩
